import Mathlib

/-!
Verification of the GFM-IAIF estimation pipeline (gfmiaif.ipynb).

The notebook computes, from one speech frame `s_gvl`, three LP filters:
vocal tract `av`, glottis `ag`, lip radiation `al`.  The numeric kernel is
rational throughout (scipy `lfilter` is a direct-form IIR recurrence and
`librosa.lpc` is Burg's method, which uses only field operations and a
sign test), so the pipeline is embedded over an arbitrary linear ordered
field `F`; instantiating `F := ℚ` makes every stage computable and lets
concrete runs be settled by `decide`.  The Hann window (the one
transcendental ingredient, used only when the caller passes an empty
window) is defined over `ℝ` at the very end.

Python exceptions are modelled by `Except Err`: `IndexError` from
indexing an empty array, `ValueError` from a numpy broadcast mismatch or
empty convolution operand, librosa's `ParameterError` for LPC order < 1,
and the `FloatingPointError` raised by Burg's method when its running
denominator becomes non-positive.
-/

namespace GFMIAIF

/-- Errors surfaced by the pipeline, named after the Python exceptions the
notebook's calls can raise. -/
inductive Err : Type where
  | indexError : Err
  | valueError : Err
  | paramError : Err
  | floatingPoint : Err
deriving DecidableEq, Repr

variable {F : Type} [LinearOrderedField F]

/-- `s[0]`: first element of a numpy array; raises `IndexError` when empty. -/
def headE (l : List F) : Except Err F :=
  match l with
  | [] => .error .indexError
  | x :: _ => .ok x

/-- `np.linspace(a, b, num)` with `endpoint=True`: `num` evenly spaced
samples from `a` to `b` inclusive (in exact arithmetic the samples are
`a + i*(b-a)/(num-1)`; numpy's final overwrite `y[-1] = b` is the same
value). -/
def linspace (a b : F) (num : ℕ) : List F :=
  if num = 0 then []
  else if num = 1 then [a]
  else (List.range num).map fun i => a + i * (b - a) / ((num : F) - 1)

/-- `np.dot` of two 1-D arrays, truncated at the shorter (the call sites
always pass arrays of equal length). -/
def dotl (x y : List F) : F := (List.zipWith (· * ·) x y).sum

/-- Energy of a sequence: the sum of squared samples. -/
def energy (x : List F) : F := dotl x x

/-- Recurrence of `scipy.signal.lfilter b a x` (direct form):
`a[0]*y[n] = Σ_j b[j]*x[n-j] - Σ_{j≥1} a[j]*y[n-j]`.  The accumulators
hold the already-consumed inputs and the produced outputs, most recent
first, so the two dot products pair `b[j]` with `x[n-j]` and `a[j]` with
`y[n-j]`.  Every call site passes `a = [1, -d]` or `a = [1]`, so `a` is
never empty and `a[0] = 1`; `a.headD 1` stands for scipy's `a[0]`. -/
def lfilterAux (b a : List F) : List F → List F → List F → List F
  | [], _, yrev => yrev.reverse
  | xn :: rest, xrev, yrev =>
      let xrev' := xn :: xrev
      let yn := (dotl b xrev' - dotl (a.drop 1) yrev) / a.headD 1
      lfilterAux b a rest xrev' (yn :: yrev)

/-- `scipy.signal.lfilter(b, a, x)`: rational filter with numerator `b`
and denominator `a`, zero initial state, output of the same length as the
input. -/
def lfilter (b a x : List F) : List F := lfilterAux b a x [] []

/-- `np.multiply` on 1-D arrays: elementwise product when the lengths
agree, scalar broadcast when one operand has length 1, and otherwise the
`ValueError` numpy raises for non-broadcastable shapes. -/
def npMultiply (x y : List F) : Except Err (List F) :=
  if x.length = y.length then .ok (List.zipWith (· * ·) x y)
  else if x.length = 1 then .ok (y.map fun t => x.headD 0 * t)
  else if y.length = 1 then .ok (x.map fun t => t * y.headD 0)
  else .error .valueError

/-- `np.convolve(a, v)` in its default full mode:
`out[n] = Σ_j a[j] * v[n-j]` for `n = 0 .. len a + len v - 2` (out-of-range
factors are zero).  numpy raises `ValueError` when either operand is
empty. -/
def npConvolve (a v : List F) : Except Err (List F) :=
  if a.isEmpty ∨ v.isEmpty then .error .valueError
  else .ok <| (List.range (a.length + v.length - 1)).map fun n =>
    ((List.range (n + 1)).map fun j => a.getD j 0 * v.getD (n - j) 0).sum

/-- State of Burg's recursion in `librosa.lpc`: the AR coefficients built
so far, the forward and backward prediction errors, and the running
denominator `den`. -/
structure BurgSt (F : Type) where
  a : List F
  f : List F
  b : List F
  den : F
deriving Repr

/-- One iteration of the loop in librosa's `__lpc` (Burg's method).
librosa keeps two fixed-size coefficient buffers and swaps them; entry
`i+1` of the previous buffer is still at its initial value 0 when
iteration `i` writes indices `1 .. i+1`, so the in-place update
`ar[j] = prev[j] + k * prev[i-j+1]` is exactly
`a' = (a ++ [0]) + k • reverse (a ++ [0])` on the meaningful prefix,
which grows by one entry per iteration.  The prediction errors are
updated with the pre-update forward error (librosa's
`fwd_pred_error_tmp`), `den` is updated from the last backward and first
forward entries before they are sliced off, and `den <= 0` raises
`FloatingPointError`. -/
def burgStep (st : BurgSt F) : Except Err (BurgSt F) :=
  if st.den ≤ 0 then .error .floatingPoint
  else
    let k := -2 * dotl st.b st.f / st.den
    let a' := List.zipWith (· + ·) (st.a ++ [0]) ((0 :: st.a.reverse).map fun t => k * t)
    let f' := List.zipWith (fun x y => x + k * y) st.f st.b
    let b' := List.zipWith (fun x y => x + k * y) st.b st.f
    match b'.getLast?, f'.head? with
    | some lb, some hf =>
        .ok ⟨a', f'.drop 1, b'.dropLast, (1 - k ^ 2) * st.den - lb ^ 2 - hf ^ 2⟩
    | _, _ => .error .indexError

/-- `order` iterations of `burgStep`. -/
def burgLoop (n : ℕ) (st : BurgSt F) : Except Err (BurgSt F) :=
  match n with
  | 0 => .ok st
  | n + 1 => burgStep st >>= burgLoop n

/-- librosa's `__lpc(y, order)`: Burg's method.  The forward error starts
as `y[1:]`, the backward error as `y[:-1]`, the coefficient vector as the
monic `[1]`, and `den` as the total energy of the two error signals. -/
def burg (y : List F) (order : ℕ) : Except Err (List F) :=
  let f0 := y.drop 1
  let b0 := y.dropLast
  (burgLoop order ⟨[1], f0, b0, dotl f0 f0 + dotl b0 b0⟩).map fun st => st.a

/-- `librosa.lpc(y, order)`: rejects `order < 1` with `ParameterError`,
then runs Burg's method. -/
def lpc (y : List F) (order : ℕ) : Except Err (List F) :=
  if order < 1 then .error .paramError else burg y order

/-!
The pipeline stages, factored from notebook cells 4-9.  The cells bind
intermediate arrays to module-level names; here each stage is a function
of its declared inputs, and a stage that a later cell reuses (the
preprocessor's `x_gv`) is recomputed by the pure function with the same
arguments, which yields the same value.
-/

/-- The residual used by cells 6, 7 and 8: inverse-filter the pre-framed
integrated signal through the current all-pole estimate `ag1` — applied
as the *numerator* of `lfilter`, with denominator `[1]`
(`lfilter(ag1, [1.0], x_gv)`) — then remove the pre-ramp
(`x_v1x[idx_pf]`, i.e. drop the first `Lpf` samples). -/
def grossResidual (ag1 x_gv : List F) (Lpf : ℕ) : List F :=
  (lfilter ag1 [1] x_gv).drop Lpf

/-- Modelled from the spec: the residual as the spec's §4.2 step (a) words
it — "apply `g` as denominator, `[1]` as numerator" — for comparison with
`grossResidual`, which embeds what the code does. -/
def grossResidualSpec (ag1 x_gv : List F) (Lpf : ℕ) : List F :=
  (lfilter [1] ag1 x_gv).drop Lpf

/-- One iteration of the gross glottis loop (cell 6): compute the
residual, window it, fit a new first-order filter by LPC, and compose it
into the cascade by polynomial multiplication (`np.convolve`). -/
def grossStep (win x_gv : List F) (Lpf : ℕ) (ag1 : List F) : Except Err (List F) := do
  let w ← npMultiply (grossResidual ag1 x_gv Lpf) win
  let ag1x ← lpc w 1
  npConvolve ag1 ag1x

/-- The `for i in range(ng)` loop of cell 6. -/
def grossLoop (win x_gv : List F) (Lpf ng : ℕ) (ag1 : List F) : Except Err (List F) :=
  match ng with
  | 0 => .ok ag1
  | n + 1 => grossStep win x_gv Lpf ag1 >>= grossLoop win x_gv Lpf n

/-- Cells 4-5: prepend the mean-normalized pre-frame ramp
`np.linspace(-s[0], s[0], Lpf)` with `Lpf = nv+1`, then cancel lip
radiation by leaky integration, `lfilter([1.0], [1.0, -d], ·)`, applied
to the raw frame (giving `s_gv`) and to the pre-framed frame (giving
`x_gv`).  Indexing `s_gvl[0]` on an empty frame raises `IndexError`. -/
def preprocess (s_gvl : List F) (nv : ℕ) (d : F) : Except Err (List F × List F) := do
  let s0 ← headE s_gvl
  let x_gvl := linspace (-s0) s0 (nv + 1) ++ s_gvl
  let al : List F := [1, -d]
  .ok (lfilter [1] al s_gvl, lfilter [1] al x_gvl)

/-- Cell 6 in full: the gross glottis cascade.  A first-order LPC fit on
the windowed integrated signal seeds the cascade, then `ng` iterations of
`grossStep` refine it. -/
def grossOf (s_gvl : List F) (nv ng : ℕ) (d : F) (win : List F) : Except Err (List F) := do
  let (s_gv, x_gv) ← preprocess s_gvl nv d
  let w ← npMultiply s_gv win
  let ag1 ← lpc w 1
  grossLoop win x_gv (nv + 1) ng ag1

/-- The residual left after removing the gross cascade (`s_g1` of
cell 7): the input to the fine glottis estimation. -/
def grossResidualOf (s_gvl : List F) (nv ng : ℕ) (d : F) (win : List F) :
    Except Err (List F) := do
  let (_, x_gv) ← preprocess s_gvl nv d
  let ag1 ← grossOf s_gvl nv ng d win
  .ok (grossResidual ag1 x_gv (nv + 1))

/-- Shared shape of cells 7 and 8: inverse-filter `x_gv` through the
given filter, strip the pre-ramp, window, and fit an LPC filter of the
requested order. -/
def fineStage (win x_gv : List F) (Lpf : ℕ) (g : List F) (order : ℕ) :
    Except Err (List F) := do
  let w ← npMultiply (grossResidual g x_gv Lpf) win
  lpc w order

/-- Cells 4-9 with the window already resolved: the full estimation
pipeline, returning `(av, ag, al)`. -/
def gfmiaifW (s_gvl : List F) (nv ng : ℕ) (d : F) (win : List F) :
    Except Err (List F × List F × List F) := do
  let (_, x_gv) ← preprocess s_gvl nv d
  let ag1 ← grossOf s_gvl nv ng d win
  let ag ← fineStage win x_gv (nv + 1) ag1 ng
  let av ← fineStage win x_gv (nv + 1) ag nv
  .ok (av, ag, [1, -d])

/-- Cell 3 followed by cells 4-9, with the window generator abstracted:
when the supplied window is empty (`if not len(list(win))`) it is
replaced by `hannF N`, the default window over the frame length. -/
def gfmiaifGen (hannF : ℕ → List F) (s_gvl : List F) (nv ng : ℕ) (d : F)
    (win : List F) : Except Err (List F × List F × List F) :=
  gfmiaifW s_gvl nv ng d (if win.length = 0 then hannF s_gvl.length else win)

/-- `np.hanning(M)`: the empty list for `M < 1`, `[1]` for `M = 1`, and
otherwise the raised cosine `0.5 - 0.5*cos(2πk/(M-1))` for
`k = 0 .. M-1`. -/
noncomputable def hanning (M : ℕ) : List ℝ :=
  if M = 0 then []
  else if M = 1 then [1]
  else (List.range M).map fun k =>
    1 / 2 - 1 / 2 * Real.cos (2 * Real.pi * (k : ℝ) / ((M : ℝ) - 1))

/-- The notebook's entry point over the reals: default-window resolution
with the true Hann window, then the pipeline. -/
noncomputable def gfmiaif (s_gvl : List ℝ) (nv ng : ℕ) (d : ℝ) (win : List ℝ) :
    Except Err (List ℝ × List ℝ × List ℝ) :=
  gfmiaifGen hanning s_gvl nv ng d win

/-! ### Inversion helpers for `Except` -/

theorem ok_bind {α β : Type} (a : α) (f : α → Except Err β) :
    (Except.ok a >>= f) = f a := rfl

theorem error_bind {α β : Type} (e : Err) (f : α → Except Err β) :
    ((Except.error e : Except Err α) >>= f) = .error e := rfl

theorem bind_ok {α β : Type} {e : Except Err α} {f : α → Except Err β} {r : β}
    (h : e >>= f = .ok r) : ∃ a, e = .ok a ∧ f a = .ok r := by
  cases e with
  | error _ => simp [Bind.bind, Except.bind] at h
  | ok a => exact ⟨a, rfl, h⟩

theorem map_ok {α β : Type} {e : Except Err α} {f : α → β} {r : β}
    (h : e.map f = .ok r) : ∃ a, e = .ok a ∧ f a = r := by
  cases e with
  | error _ => simp [Except.map] at h
  | ok a => exact ⟨a, rfl, by simpa [Except.map] using h⟩

/-! ### Shape invariants of the numeric primitives -/

theorem lfilterAux_length (b a : List F) (x xrev yrev : List F) :
    (lfilterAux b a x xrev yrev).length = yrev.length + x.length := by
  induction x generalizing xrev yrev with
  | nil => simp [lfilterAux]
  | cons xn rest ih =>
      rw [lfilterAux, ih]
      simp
      omega

/-- `lfilter` returns an output of the same length as its input. -/
theorem lfilter_length (b a x : List F) : (lfilter b a x).length = x.length := by
  simp [lfilter, lfilterAux_length]

theorem npConvolve_ok_length {a v c : List F} (h : npConvolve a v = .ok c) :
    c.length = a.length + v.length - 1 := by
  unfold npConvolve at h
  split at h
  · exact absurd h (by simp)
  · simpa using (Except.ok.inj h).symm ▸ by simp

theorem burgStep_ok_length {st st' : BurgSt F} (h : burgStep st = .ok st') :
    st'.a.length = st.a.length + 1 := by
  unfold burgStep at h
  split at h
  · exact absurd h (by simp)
  · dsimp only at h
    split at h
    · cases Except.ok.inj h
      simp
    · exact absurd h (by simp)

theorem burgStep_ok_head {st st' : BurgSt F} (h : burgStep st = .ok st')
    (h1 : st.a.head? = some 1) : st'.a.head? = some 1 := by
  unfold burgStep at h
  split at h
  · exact absurd h (by simp)
  · dsimp only at h
    split at h
    · cases Except.ok.inj h
      obtain ⟨t, ht⟩ : ∃ t, st.a = 1 :: t := by
        cases ha : st.a with
        | nil => rw [ha] at h1; simp at h1
        | cons x t => rw [ha] at h1; simp at h1; exact ⟨t, by rw [h1]⟩
      simp [ht, List.zipWith]
    · exact absurd h (by simp)

theorem burgLoop_ok_inv {n : ℕ} {st st' : BurgSt F} (h : burgLoop n st = .ok st') :
    st'.a.length = st.a.length + n ∧ (st.a.head? = some 1 → st'.a.head? = some 1) := by
  induction n generalizing st with
  | zero => cases Except.ok.inj h; simp
  | succ n ih =>
      obtain ⟨st₁, h₁, h₂⟩ := bind_ok h
      obtain ⟨hl, hh⟩ := ih h₂
      exact ⟨by rw [hl, burgStep_ok_length h₁]; omega,
        fun h1 => hh (burgStep_ok_head h₁ h1)⟩

/-- On success, Burg's method returns a monic filter with `order + 1`
coefficients. -/
theorem burg_ok_shape {y c : List F} {order : ℕ} (h : burg y order = .ok c) :
    c.length = order + 1 ∧ c.head? = some 1 := by
  obtain ⟨st', h₁, h₂⟩ := map_ok h
  obtain ⟨hl, hh⟩ := burgLoop_ok_inv h₁
  subst h₂
  exact ⟨by simpa [Nat.add_comm] using hl, hh (by simp)⟩

/-- On success, `lpc y order` returns a monic filter with `order + 1`
coefficients (and `order ≥ 1` must have held). -/
theorem lpc_ok_shape {y c : List F} {order : ℕ} (h : lpc y order = .ok c) :
    c.length = order + 1 ∧ c.head? = some 1 := by
  unfold lpc at h
  split at h
  · exact absurd h (by simp)
  · exact burg_ok_shape h

theorem fineStage_ok {win x_gv : List F} {Lpf : ℕ} {g : List F} {order : ℕ} {c : List F}
    (h : fineStage win x_gv Lpf g order = .ok c) :
    ∃ w, npMultiply (grossResidual g x_gv Lpf) win = .ok w ∧ lpc w order = .ok c := by
  unfold fineStage at h
  exact bind_ok h

/-- Success inversion for the full pipeline: the returned filters come
from the two fine LPC fits and `al` is the constructed `[1, -d]`. -/
theorem gfmiaifW_ok {s : List F} {nv ng : ℕ} {d : F} {win av ag al : List F}
    (h : gfmiaifW s nv ng d win = .ok (av, ag, al)) :
    al = [1, -d] ∧ (∃ w, lpc w nv = .ok av) ∧ ∃ w, lpc w ng = .ok ag := by
  unfold gfmiaifW at h
  obtain ⟨p, hp, h⟩ := bind_ok h
  obtain ⟨s₁, x₁⟩ := p
  obtain ⟨g₁, hg₁, h⟩ := bind_ok h
  obtain ⟨ag', hag, h⟩ := bind_ok h
  obtain ⟨av', hav, h⟩ := bind_ok h
  obtain ⟨hav', hag', hal⟩ : av' = av ∧ ag' = ag ∧ [1, -d] = al := by
    have := Except.ok.inj h
    exact ⟨congrArg Prod.fst this, congrArg (fun r => r.2.1) this,
      congrArg (fun r => r.2.2) this⟩
  subst hav' hag'
  obtain ⟨wv, _, hlv⟩ := fineStage_ok hav
  obtain ⟨wg, _, hlg⟩ := fineStage_ok hag
  exact ⟨hal.symm, ⟨wv, hlv⟩, ⟨wg, hlg⟩⟩

theorem grossStep_ok_length {win x_gv : List F} {Lpf : ℕ} {g g' : List F}
    (h : grossStep win x_gv Lpf g = .ok g') : g'.length = g.length + 1 := by
  unfold grossStep at h
  obtain ⟨w, hw, h⟩ := bind_ok h
  obtain ⟨g1, hg1, h⟩ := bind_ok h
  have h2 := (lpc_ok_shape hg1).1
  have h3 := npConvolve_ok_length h
  omega

theorem grossLoop_ok_length {win x_gv : List F} {Lpf : ℕ} :
    ∀ {ng : ℕ} {g g' : List F}, grossLoop win x_gv Lpf ng g = .ok g' →
      g'.length = g.length + ng := by
  intro ng
  induction ng with
  | zero => intro g g' h; cases Except.ok.inj h; rfl
  | succ n ih =>
      intro g g' h
      obtain ⟨g₁, h₁, h₂⟩ := bind_ok h
      rw [ih h₂, grossStep_ok_length h₁]
      omega

/-! ### Claim theorems -/

/-- C2: for every frame and every `d` strictly between 0 and 1, a call of
the pipeline that returns does so with the lip-radiation filter `al`
equal to exactly `[1, -d]`, independent of the frame content — `al` is
parameterized, never estimated from the signal. -/
theorem claim_C2_lip_radiation (hannF : ℕ → List F) (s : List F) (nv ng : ℕ)
    (d : F) (win av ag al : List F) (_hd0 : 0 < d) (_hd1 : d < 1)
    (h : gfmiaifGen hannF s nv ng d win = .ok (av, ag, al)) : al = [1, -d] :=
  (gfmiaifW_ok h).1

set_option maxRecDepth 8000 in
theorem claim_C2_witness :
    ((gfmiaifGen (fun n => List.replicate n 1) ([1, 2, -1, 1] : List ℚ) 2 1 (1 / 2)
        [1, 1, 1, 1]).map fun r => r.2.2) = .ok [1, -(1 / 2)] := by
  cases hE : gfmiaifGen (fun n => List.replicate n 1) ([1, 2, -1, 1] : List ℚ) 2 1 (1 / 2)
      [1, 1, 1, 1] with
  | error e =>
      have hOk : (gfmiaifGen (fun n => List.replicate n 1) ([1, 2, -1, 1] : List ℚ) 2 1 (1 / 2)
          [1, 1, 1, 1]).isOk = true := by with_unfolding_all decide
      rw [hE] at hOk
      exact Bool.noConfusion hOk
  | ok r =>
      obtain ⟨av, ag, al⟩ := r
      have hres := claim_C2_lip_radiation (fun n => List.replicate n 1) [1, 2, -1, 1] 2 1
        (1 / 2) [1, 1, 1, 1] av ag al (by norm_num) (by norm_num) hE
      simp [Except.map, hres]

/-- C3: for every successful call, `av` has length `nv+1`, `ag` has
length `ng+1`, and each of the three returned filters is monic (first
coefficient exactly 1). -/
theorem claim_C3_shapes (hannF : ℕ → List F) (s : List F) (nv ng : ℕ)
    (d : F) (win av ag al : List F)
    (h : gfmiaifGen hannF s nv ng d win = .ok (av, ag, al)) :
    av.length = nv + 1 ∧ ag.length = ng + 1 ∧
    av.head? = some 1 ∧ ag.head? = some 1 ∧ al.head? = some 1 := by
  obtain ⟨hal, ⟨wv, hv⟩, ⟨wg, hg⟩⟩ := gfmiaifW_ok h
  obtain ⟨hvl, hvh⟩ := lpc_ok_shape hv
  obtain ⟨hgl, hgh⟩ := lpc_ok_shape hg
  exact ⟨hvl, hgl, hvh, hgh, by rw [hal]; rfl⟩

set_option maxRecDepth 8000 in
theorem claim_C3_witness :
    ((gfmiaifGen (fun n => List.replicate n 1) ([1, 2, -1, 1] : List ℚ) 2 1 (1 / 2)
        [1, 1, 1, 1]).map fun r =>
          (r.1.length, r.2.1.length, r.1.head?, r.2.1.head?, r.2.2.head?)) =
      .ok (3, 2, some 1, some 1, some 1) := by
  cases hE : gfmiaifGen (fun n => List.replicate n 1) ([1, 2, -1, 1] : List ℚ) 2 1 (1 / 2)
      [1, 1, 1, 1] with
  | error e =>
      have hOk : (gfmiaifGen (fun n => List.replicate n 1) ([1, 2, -1, 1] : List ℚ) 2 1 (1 / 2)
          [1, 1, 1, 1]).isOk = true := by with_unfolding_all decide
      rw [hE] at hOk
      exact Bool.noConfusion hOk
  | ok r =>
      obtain ⟨av, ag, al⟩ := r
      obtain ⟨h1, h2, h3, h4, h5⟩ := claim_C3_shapes (fun n => List.replicate n 1) [1, 2, -1, 1]
        2 1 (1 / 2) [1, 1, 1, 1] av ag al hE
      simp [Except.map, h1, h2, h3, h4, h5]

/-- C9: the pipeline is a pure function of its argument tuple — two calls
on equal inputs `(frame, nv, ng, d, window)` return identical results;
there is no hidden state. -/
theorem claim_C9_deterministic (hannF : ℕ → List F) (s₁ s₂ : List F)
    (nv₁ nv₂ ng₁ ng₂ : ℕ) (d₁ d₂ : F) (win₁ win₂ : List F)
    (hs : s₁ = s₂) (hnv : nv₁ = nv₂) (hng : ng₁ = ng₂) (hd : d₁ = d₂) (hw : win₁ = win₂) :
    gfmiaifGen hannF s₁ nv₁ ng₁ d₁ win₁ = gfmiaifGen hannF s₂ nv₂ ng₂ d₂ win₂ := by
  rw [hs, hnv, hng, hd, hw]

theorem claim_C9_witness :
    gfmiaifGen (fun n => List.replicate n 1) ([1, 2, -1, 1] : List ℚ) 2 1 (1 / 2) [1, 1, 1, 1] =
    gfmiaifGen (fun n => List.replicate n 1) ([1, 2, -1, 1] : List ℚ) 2 1 (1 / 2) [1, 1, 1, 1] :=
  claim_C9_deterministic (fun n => List.replicate n 1) [1, 2, -1, 1] [1, 2, -1, 1] 2 2 1 1
    (1 / 2) (1 / 2) [1, 1, 1, 1] [1, 1, 1, 1] rfl rfl rfl rfl rfl

/-- C10: supplying the window as an empty sequence does not fail any
window-length check; the pipeline substitutes the default Hann window of
the frame's length, exactly as when no window is supplied (the
notebook's default is itself `win = []`). -/
theorem claim_C10_empty_window (s : List ℝ) (nv ng : ℕ) (d : ℝ) :
    gfmiaif s nv ng d [] = gfmiaifW s nv ng d (hanning s.length) := rfl

set_option maxRecDepth 8000 in
/-- C4, as stated, is false: the loop's residual is computed by
`lfilter(ag1, [1.0], x_gv)` — cascade as numerator — which differs from
the claimed "g as denominator, [1] as numerator" form.  The values below
are from an actual run: for the frame `[1, 2, -1, 1]` with `nv = 2`,
`ng = 1`, `d = 1/2` and an all-ones window, the preprocessor yields the
listed `s_gv` and `x_gv`, the initial first-order fit is
`[1, -436/953]`, and on that cascade the two residual forms disagree. -/
theorem claim_C4_counterexample :
    preprocess ([1, 2, -1, 1] : List ℚ) 2 (1 / 2) =
      .ok ([1, 5 / 2, 1 / 4, 9 / 8],
           [-1, -1 / 2, 3 / 4, 11 / 8, 43 / 16, 11 / 32, 75 / 64]) ∧
    npMultiply ([1, 5 / 2, 1 / 4, 9 / 8] : List ℚ) [1, 1, 1, 1] = .ok [1, 5 / 2, 1 / 4, 9 / 8] ∧
    lpc ([1, 5 / 2, 1 / 4, 9 / 8] : List ℚ) 1 = .ok [1, -436 / 953] ∧
    grossResidual ([1, -436 / 953] : List ℚ) [-1, -1 / 2, 3 / 4, 11 / 8, 43 / 16, 11 / 32, 75 / 64] 3 ≠
      grossResidualSpec ([1, -436 / 953] : List ℚ) [-1, -1 / 2, 3 / 4, 11 / 8, 43 / 16, 11 / 32, 75 / 64] 3 :=
  ⟨by with_unfolding_all rfl, by with_unfolding_all rfl, by with_unfolding_all rfl,
   by with_unfolding_all decide⟩

/-- C4 amended: in every iteration of the gross glottis loop, the padded
integrated signal is inverse-filtered through the current cascade `g` by
applying `g` as the *numerator* and `[1]` as the denominator of the
filter, and the first `Lpf` samples are then dropped, leaving an
N-length residual; the loop body then windows that residual, fits a
first-order filter, and convolves it into the cascade. -/
theorem claim_C4_residual_form (g x_gv win : List F) (Lpf N : ℕ)
    (hx : x_gv.length = Lpf + N) :
    grossResidual g x_gv Lpf = (lfilter g [1] x_gv).drop Lpf ∧
    (grossResidual g x_gv Lpf).length = N ∧
    grossStep win x_gv Lpf g =
      (npMultiply (grossResidual g x_gv Lpf) win >>= fun w =>
        lpc w 1 >>= fun g1 => npConvolve g g1) := by
  refine ⟨rfl, ?_, rfl⟩
  simp [grossResidual, lfilter_length, hx]

theorem claim_C4_witness :
    ([(-1 : ℚ), -1 / 2, 3 / 4, 11 / 8, 43 / 16, 11 / 32, 75 / 64].length = 3 + 4) ∧
    grossResidual ([1, -436 / 953] : List ℚ) [-1, -1 / 2, 3 / 4, 11 / 8, 43 / 16, 11 / 32, 75 / 64] 3 =
      (lfilter [1, -436 / 953] [1] [-1, -1 / 2, 3 / 4, 11 / 8, 43 / 16, 11 / 32, 75 / 64]).drop 3 ∧
    (grossResidual ([1, -436 / 953] : List ℚ) [-1, -1 / 2, 3 / 4, 11 / 8, 43 / 16, 11 / 32, 75 / 64] 3).length = 4 :=
  ⟨by decide,
   (claim_C4_residual_form [1, -436 / 953] [-1, -1 / 2, 3 / 4, 11 / 8, 43 / 16, 11 / 32, 75 / 64]
      [1, 1, 1, 1, 1, 1, 1] 3 4 (by decide)).1,
   (claim_C4_residual_form [1, -436 / 953] [-1, -1 / 2, 3 / 4, 11 / 8, 43 / 16, 11 / 32, 75 / 64]
      [1, 1, 1, 1, 1, 1, 1] 3 4 (by decide)).2.1⟩

set_option maxRecDepth 8000 in
/-- C5, as stated, is false: with `ng = 1` the cascade returned by the
gross glottis stage has 3 coefficients, not `ng + 1 = 2` (the loop starts
from a two-coefficient first-order fit and each of the `ng` iterations
convolves in another two-coefficient filter, adding one coefficient per
iteration). -/
theorem claim_C5_counterexample :
    ((grossOf ([1, 2, -1, 1] : List ℚ) 2 1 (1 / 2) [1, 1, 1, 1]).map List.length) = .ok 3 ∧
    (3 : ℕ) ≠ 1 + 1 :=
  ⟨by with_unfolding_all rfl, by decide⟩

/-- C5 amended: after the `ng` iterations of the gross glottis cascade
loop (starting from one first-order fit and convolving in one new
first-order fit per iteration), the resulting cascade filter has `ng + 2`
coefficients, i.e. polynomial degree up to `ng + 1`. -/
theorem claim_C5_cascade_length (s win : List F) (nv ng : ℕ) (d : F) (g : List F)
    (h : grossOf s nv ng d win = .ok g) : g.length = ng + 2 := by
  unfold grossOf at h
  obtain ⟨p, hp, h⟩ := bind_ok h
  obtain ⟨s₁, x₁⟩ := p
  obtain ⟨w, hw, h⟩ := bind_ok h
  obtain ⟨g0, hg0, h⟩ := bind_ok h
  have h2 := (lpc_ok_shape hg0).1
  have h3 := grossLoop_ok_length h
  omega

set_option maxRecDepth 8000 in
theorem claim_C5_witness :
    ((grossOf ([1, 2, -1, 1] : List ℚ) 2 1 (1 / 2) [1, 1, 1, 1]).map List.length) = .ok (1 + 2) := by
  cases hE : grossOf ([1, 2, -1, 1] : List ℚ) 2 1 (1 / 2) [1, 1, 1, 1] with
  | error e =>
      have hOk : (grossOf ([1, 2, -1, 1] : List ℚ) 2 1 (1 / 2) [1, 1, 1, 1]).isOk = true := by
        with_unfolding_all decide
      rw [hE] at hOk
      exact Bool.noConfusion hOk
  | ok g =>
      have := claim_C5_cascade_length ([1, 2, -1, 1] : List ℚ) [1, 1, 1, 1] 2 1 (1 / 2) g hE
      simp [Except.map, this]

set_option maxRecDepth 8000 in
/-- C6, as stated, is false: the code performs no parameter validation.
With `d = 2`, far outside `(0, 1)`, and an otherwise ordinary input, the
call completes and returns `al = [1, -2]` instead of failing. -/
theorem claim_C6_counterexample :
    ((gfmiaifW ([1, 2, -1, 1] : List ℚ) 2 1 2 [1, 1, 1, 1]).map fun r => r.2.2) = .ok [1, -2] := by
  with_unfolding_all rfl

/-- C6 amended: only the empty frame is rejected on every input, and the
failure is an `IndexError` raised when the pre-frame construction indexes
`s_gvl[0]` — not a synchronous `InvalidParameterError` check; `d`, `nv`,
`ng` and the window length are not validated before filtering (the
counterexample shows `d` outside `(0,1)` succeeding). -/
theorem claim_C6_empty_frame (hannF : ℕ → List F) (nv ng : ℕ) (d : F) (win : List F) :
    gfmiaifGen hannF [] nv ng d win = .error .indexError := rfl

/-! ### All-zero frames (C7) -/

theorem dotl_zero_right {x y : List F} (hy : ∀ t ∈ y, t = 0) : dotl x y = 0 := by
  induction x generalizing y with
  | nil => simp [dotl]
  | cons a x ih =>
      cases y with
      | nil => simp [dotl]
      | cons b y =>
          have hb : b = 0 := hy b (by simp)
          have hy' : ∀ t ∈ y, t = 0 := fun t ht => hy t (by simp [ht])
          simp only [dotl, List.zipWith_cons_cons, List.sum_cons]
          rw [hb, mul_zero, zero_add]
          exact ih hy'

theorem lfilterAux_zero {b a : List F} : ∀ {x xrev yrev : List F},
    (∀ t ∈ x, t = 0) → (∀ t ∈ xrev, t = 0) → (∀ t ∈ yrev, t = 0) →
    ∀ t ∈ lfilterAux b a x xrev yrev, t = 0 := by
  intro x
  induction x with
  | nil =>
      intro xrev yrev _ _ hyrev t ht
      rw [lfilterAux] at ht
      exact hyrev t (List.mem_reverse.mp ht)
  | cons xn rest ih =>
      intro xrev yrev hx hxrev hyrev t ht
      simp only [lfilterAux] at ht
      have hxcons : ∀ u ∈ xn :: xrev, u = 0 := by
        intro u hu
        rcases List.mem_cons.mp hu with h | h
        · rw [h]; exact hx xn (by simp)
        · exact hxrev u h
      have hyn : (dotl b (xn :: xrev) - dotl (a.drop 1) yrev) / a.headD 1 = 0 := by
        rw [dotl_zero_right hxcons, dotl_zero_right hyrev, sub_zero, zero_div]
      refine ih (fun u hu => hx u (by simp [hu])) hxcons ?_ t ht
      intro u hu
      rcases List.mem_cons.mp hu with h | h
      · rw [h]; exact hyn
      · exact hyrev u h

/-- The leaky integrator (and any `lfilter`) maps the all-zero signal to
the all-zero signal. -/
theorem lfilter_zero {b a x : List F} (hx : ∀ t ∈ x, t = 0) :
    ∀ t ∈ lfilter b a x, t = 0 :=
  lfilterAux_zero hx (by simp) (by simp)

theorem linspace_zero (num : ℕ) : ∀ t ∈ linspace (-(0 : F)) 0 num, t = 0 := by
  unfold linspace
  split
  · simp
  · split
    · simp
    · intro t ht
      simp only [List.mem_map, List.mem_range] at ht
      obtain ⟨i, _, hi⟩ := ht
      rw [← hi]
      simp

theorem zipWith_mul_zero_left {x : List F} : ∀ {y : List F}, (∀ t ∈ x, t = 0) →
    ∀ t ∈ List.zipWith (· * ·) x y, t = 0 := by
  induction x with
  | nil => intro y _ t ht; simp at ht
  | cons a x ih =>
      intro y hx t ht
      cases y with
      | nil => simp at ht
      | cons b y =>
          simp only [List.zipWith_cons_cons, List.mem_cons] at ht
          rcases ht with h | h
          · rw [h, hx a (by simp), zero_mul]
          · exact ih (fun u hu => hx u (by simp [hu])) t h

/-- Multiplying an all-zero signal with any broadcast-compatible window
succeeds and yields an all-zero signal. -/
theorem npMultiply_zero_left {x y : List F} (hx : ∀ t ∈ x, t = 0)
    (hlen : y.length = x.length ∨ y.length = 1) :
    ∃ w, npMultiply x y = .ok w ∧ ∀ t ∈ w, t = 0 := by
  unfold npMultiply
  rcases hlen with h | h
  · rw [if_pos h.symm]
    exact ⟨_, rfl, zipWith_mul_zero_left hx⟩
  · by_cases hxy : x.length = y.length
    · rw [if_pos hxy]
      exact ⟨_, rfl, zipWith_mul_zero_left hx⟩
    · rw [if_neg hxy]
      by_cases hx1 : x.length = 1
      · rw [if_pos hx1]
        refine ⟨_, rfl, ?_⟩
        intro t ht
        simp only [List.mem_map] at ht
        obtain ⟨u, _, hu⟩ := ht
        obtain ⟨x0, rfl⟩ : ∃ x0, x = [x0] := List.length_eq_one.mp hx1
        rw [← hu]
        simp [hx x0 (by simp)]
      · rw [if_neg hx1, if_pos h]
        refine ⟨_, rfl, ?_⟩
        intro t ht
        simp only [List.mem_map] at ht
        obtain ⟨u, hu, hut⟩ := ht
        rw [← hut, hx u hu, zero_mul]

/-- Burg's method on an all-zero signal fails immediately: the initial
denominator is zero, so the first iteration raises
`FloatingPointError`. -/
theorem lpc_zero {y : List F} (hy : ∀ t ∈ y, t = 0) {order : ℕ} (ho : 1 ≤ order) :
    lpc y order = .error .floatingPoint := by
  unfold lpc
  rw [if_neg (by omega)]
  unfold burg
  dsimp only
  have hf : ∀ t ∈ y.drop 1, t = 0 := fun t ht => hy t (List.drop_subset 1 y ht)
  have hb : ∀ t ∈ y.dropLast, t = 0 := fun t ht => hy t (List.dropLast_subset y ht)
  have hden : dotl (y.drop 1) (y.drop 1) + dotl y.dropLast y.dropLast = 0 := by
    rw [dotl_zero_right hf, dotl_zero_right hb, add_zero]
  obtain ⟨m, rfl⟩ : ∃ m, order = m + 1 := ⟨order - 1, by omega⟩
  have hstep : burgStep (⟨[1], y.drop 1, y.dropLast,
      dotl (y.drop 1) (y.drop 1) + dotl y.dropLast y.dropLast⟩ : BurgSt F) =
      .error .floatingPoint := by
    unfold burgStep
    rw [if_pos (le_of_eq hden)]
  rw [show ∀ st : BurgSt F, burgLoop (m + 1) st = burgStep st >>= burgLoop m
    from fun _ => rfl]
  rw [hstep, error_bind]
  rfl

/-- C7: an all-zero frame of any positive length makes the pipeline fail
(with the `FloatingPointError` that librosa's Burg recursion raises on a
zero-energy signal — the condition the spec names `DegenerateFrameError`)
rather than return coefficients.  The window must be
broadcast-compatible, as the default Hann window always is. -/
theorem claim_C7_zero_frame (s : List F) (nv ng : ℕ) (d : F) (win : List F)
    (hne : s ≠ []) (hz : ∀ t ∈ s, t = 0)
    (hwin : win.length = s.length ∨ win.length = 1) :
    gfmiaifW s nv ng d win = .error .floatingPoint := by
  obtain ⟨s0, s', rfl⟩ := List.exists_cons_of_ne_nil hne
  have hs0 : s0 = 0 := hz s0 (by simp)
  subst hs0
  have hpre : preprocess ((0 : F) :: s') nv d =
      .ok (lfilter [1] [1, -d] ((0 : F) :: s'),
           lfilter [1] [1, -d] (linspace (-(0 : F)) 0 (nv + 1) ++ ((0 : F) :: s'))) := rfl
  have hsgz : ∀ t ∈ lfilter [1] [1, -d] ((0 : F) :: s'), t = 0 := lfilter_zero hz
  have hlen : win.length = (lfilter [1] [1, -d] ((0 : F) :: s')).length ∨ win.length = 1 := by
    rw [lfilter_length]
    exact hwin
  obtain ⟨w, hw, hwz⟩ := npMultiply_zero_left hsgz hlen
  have hlpc : lpc w 1 = .error .floatingPoint := lpc_zero hwz (by omega)
  have hgross : grossOf ((0 : F) :: s') nv ng d win = .error .floatingPoint := by
    unfold grossOf
    rw [hpre, ok_bind]
    show (npMultiply _ win >>= _) = _
    rw [hw, ok_bind, hlpc, error_bind]
  unfold gfmiaifW
  rw [hpre, ok_bind]
  show (grossOf _ nv ng d win >>= _) = _
  rw [hgross, error_bind]

theorem claim_C7_witness :
    gfmiaifW ([0, 0, 0] : List ℚ) 1 1 (1 / 2) [1, 1, 1] = .error .floatingPoint :=
  claim_C7_zero_frame [0, 0, 0] 1 1 (1 / 2) [1, 1, 1] (by simp)
    (fun t ht => by simpa using ht) (by simp)

/-!
### Scaling the window (C8)

The Burg recursion is invariant under scaling its input signal by a
nonzero constant: the reflection coefficient is a ratio of two
quantities that both scale by `c²`.  Since the window enters the
pipeline only multiplicatively, scaling the window leaves every fitted
filter — and hence the gross-cascade residual — unchanged, while the
energy of the windowed frame scales by `c²`.
-/

/-- Pointwise scaling of a sequence by `c`. -/
def scaleL (c : F) (l : List F) : List F := l.map fun t => c * t

theorem scaleL_length (c : F) (l : List F) : (scaleL c l).length = l.length := by
  simp [scaleL]

theorem energy_scaleL (c : F) (x : List F) : energy (scaleL c x) = c ^ 2 * energy x := by
  unfold energy dotl scaleL
  induction x with
  | nil => simp
  | cons a x ih =>
      simp only [List.map_cons, List.zipWith_cons_cons, List.sum_cons, ih]
      ring

theorem dotl_scaleL (c : F) : ∀ x y : List F, dotl (scaleL c x) (scaleL c y) = c ^ 2 * dotl x y := by
  intro x
  induction x with
  | nil => intro y; simp [dotl, scaleL]
  | cons a x ih =>
      intro y
      cases y with
      | nil => simp [dotl, scaleL]
      | cons b y =>
          simp only [scaleL, List.map_cons, dotl, List.zipWith_cons_cons, List.sum_cons]
          have hxy := ih y
          simp only [scaleL, dotl] at hxy
          rw [hxy]
          ring

theorem zipWith_addmul_scaleL (c k : F) : ∀ f b : List F,
    List.zipWith (fun x y => x + k * y) (scaleL c f) (scaleL c b) =
      scaleL c (List.zipWith (fun x y => x + k * y) f b) := by
  intro f
  induction f with
  | nil => intro b; simp [scaleL]
  | cons a f ih =>
      intro b
      cases b with
      | nil => simp [scaleL]
      | cons b0 b =>
          have hfb := ih b
          simp only [scaleL, List.map_cons] at hfb ⊢
          simp only [List.zipWith_cons_cons]
          rw [hfb]
          congr 1
          ring

theorem zipWith_mul_scaleL_right (c : F) : ∀ x y : List F,
    List.zipWith (· * ·) x (scaleL c y) = scaleL c (List.zipWith (· * ·) x y) := by
  intro x
  induction x with
  | nil => intro y; simp [scaleL]
  | cons a x ih =>
      intro y
      cases y with
      | nil => simp [scaleL]
      | cons b y =>
          have hxy := ih y
          simp only [scaleL, List.map_cons] at hxy ⊢
          simp only [List.zipWith_cons_cons]
          rw [hxy]
          congr 1
          ring

theorem head?_scaleL (c : F) (l : List F) :
    (scaleL c l).head? = l.head?.map fun t => c * t := by
  simp [scaleL]

theorem getLast?_scaleL (c : F) (l : List F) :
    (scaleL c l).getLast? = l.getLast?.map fun t => c * t := by
  simp [scaleL]

theorem drop_scaleL (c : F) (n : ℕ) (l : List F) :
    (scaleL c l).drop n = scaleL c (l.drop n) := by
  simp [scaleL, List.map_drop]

theorem dropLast_scaleL (c : F) (l : List F) :
    (scaleL c l).dropLast = scaleL c l.dropLast := by
  simp [scaleL, List.map_dropLast]

/-- The state relation under which one Burg iteration commutes with
scaling the input signal: coefficients unchanged, errors scaled by `c`,
denominator scaled by `c²`. -/
def scaleSt (c : F) (st : BurgSt F) : BurgSt F :=
  ⟨st.a, scaleL c st.f, scaleL c st.b, c ^ 2 * st.den⟩

theorem burgStep_scaleSt (c : F) (hc : c ≠ 0) (st : BurgSt F) :
    burgStep (scaleSt c st) = (burgStep st).map (scaleSt c) := by
  obtain ⟨a, f, b, den⟩ := st
  have hc2 : (0 : F) < c ^ 2 := by positivity
  unfold burgStep scaleSt
  dsimp only
  by_cases hden : den ≤ 0
  · rw [if_pos hden, if_pos (by nlinarith)]
    rfl
  · have hdpos : 0 < den := not_le.mp hden
    rw [if_neg (not_le.mpr (mul_pos hc2 hdpos)), if_neg hden]
    have hk : -2 * dotl (scaleL c b) (scaleL c f) / (c ^ 2 * den) = -2 * dotl b f / den := by
      rw [dotl_scaleL]
      rw [div_eq_div_iff (ne_of_gt (mul_pos hc2 hdpos)) (ne_of_gt hdpos)]
      ring
    rw [hk]
    rw [zipWith_addmul_scaleL, zipWith_addmul_scaleL, getLast?_scaleL, head?_scaleL]
    cases hB : (List.zipWith (fun x y => x + -2 * dotl b f / den * y) b f).getLast? with
    | none =>
        cases hF : (List.zipWith (fun x y => x + -2 * dotl b f / den * y) f b).head? <;>
          simp only [Option.map_none', Option.map_some'] <;> rfl
    | some lb =>
        cases hF : (List.zipWith (fun x y => x + -2 * dotl b f / den * y) f b).head? with
        | none => simp only [Option.map_none', Option.map_some']; rfl
        | some hf =>
            simp only [Option.map_some', Except.map, drop_scaleL, dropLast_scaleL]
            congr 2
            ring

theorem burgLoop_scaleSt (c : F) (hc : c ≠ 0) : ∀ (n : ℕ) (st : BurgSt F),
    burgLoop n (scaleSt c st) = (burgLoop n st).map (scaleSt c) := by
  intro n
  induction n with
  | zero => intro st; rfl
  | succ n ih =>
      intro st
      show (burgStep (scaleSt c st) >>= burgLoop n) = (burgStep st >>= burgLoop n).map _
      rw [burgStep_scaleSt c hc]
      cases burgStep st with
      | error e => rfl
      | ok st₁ =>
          simp only [Except.map, ok_bind]
          exact ih st₁

/-- Burg's method is invariant under scaling its input by a nonzero
constant: the reflection coefficients are ratios in which the scale
cancels. -/
theorem burg_scaleL (c : F) (hc : c ≠ 0) (y : List F) (order : ℕ) :
    burg (scaleL c y) order = burg y order := by
  unfold burg
  dsimp only
  rw [drop_scaleL, dropLast_scaleL]
  have hst : (⟨[1], scaleL c (y.drop 1), scaleL c y.dropLast,
      dotl (scaleL c (y.drop 1)) (scaleL c (y.drop 1)) +
        dotl (scaleL c y.dropLast) (scaleL c y.dropLast)⟩ : BurgSt F) =
      scaleSt c ⟨[1], y.drop 1, y.dropLast,
        dotl (y.drop 1) (y.drop 1) + dotl y.dropLast y.dropLast⟩ := by
    unfold scaleSt
    rw [dotl_scaleL, dotl_scaleL]
    congr 1
    ring
  rw [hst, burgLoop_scaleSt c hc]
  cases burgLoop order (⟨[1], y.drop 1, y.dropLast,
      dotl (y.drop 1) (y.drop 1) + dotl y.dropLast y.dropLast⟩ : BurgSt F) <;> rfl

theorem lpc_scaleL (c : F) (hc : c ≠ 0) (y : List F) (order : ℕ) :
    lpc (scaleL c y) order = lpc y order := by
  unfold lpc
  by_cases h : order < 1
  · rw [if_pos h, if_pos h]
  · rw [if_neg h, if_neg h, burg_scaleL c hc]

/-- Scaling the second operand of `np.multiply` scales the product. -/
theorem npMultiply_scaleL_right (c : F) (x y : List F) :
    npMultiply x (scaleL c y) = (npMultiply x y).map (scaleL c) := by
  unfold npMultiply
  rw [scaleL_length]
  by_cases h1 : x.length = y.length
  · rw [if_pos h1, if_pos h1]
    simp only [Except.map]
    rw [zipWith_mul_scaleL_right]
  · rw [if_neg h1, if_neg h1]
    by_cases h2 : x.length = 1
    · rw [if_pos h2, if_pos h2]
      simp only [Except.map, scaleL, List.map_map]
      have hco : ((fun t => x.headD 0 * t) ∘ fun t => c * t) =
          ((fun t => c * t) ∘ fun t => x.headD 0 * t) := by
        funext t
        simp only [Function.comp_apply]
        ring
      rw [hco]
    · rw [if_neg h2, if_neg h2]
      by_cases h3 : y.length = 1
      · rw [if_pos h3, if_pos h3]
        obtain ⟨y0, rfl⟩ : ∃ y0, y = [y0] := List.length_eq_one.mp h3
        simp only [Except.map, scaleL, List.map_cons, List.map_nil, List.headD_cons,
          List.map_map]
        have hco : (fun t => t * (c * y0)) = ((fun t => c * t) ∘ fun t => t * y0) := by
          funext t
          simp only [Function.comp_apply]
          ring
        rw [hco]
      · rw [if_neg h3, if_neg h3]
        rfl

theorem grossStep_scaleL (c : F) (hc : c ≠ 0) (win x_gv : List F) (Lpf : ℕ) (g : List F) :
    grossStep (scaleL c win) x_gv Lpf g = grossStep win x_gv Lpf g := by
  unfold grossStep
  show (npMultiply _ (scaleL c win) >>= _) = (npMultiply _ win >>= _)
  rw [npMultiply_scaleL_right]
  cases npMultiply (grossResidual g x_gv Lpf) win with
  | error e => rfl
  | ok w =>
      simp only [Except.map, ok_bind]
      rw [lpc_scaleL c hc]

theorem grossLoop_scaleL (c : F) (hc : c ≠ 0) (win x_gv : List F) (Lpf : ℕ) :
    ∀ (ng : ℕ) (g : List F),
      grossLoop (scaleL c win) x_gv Lpf ng g = grossLoop win x_gv Lpf ng g := by
  intro ng
  induction ng with
  | zero => intro g; rfl
  | succ n ih =>
      intro g
      show (grossStep (scaleL c win) x_gv Lpf g >>= _) = (grossStep win x_gv Lpf g >>= _)
      rw [grossStep_scaleL c hc]
      cases grossStep win x_gv Lpf g with
      | error e => rfl
      | ok g₁ => simp only [ok_bind]; exact ih g₁

/-- The gross glottis cascade is invariant under scaling the window by a
nonzero constant. -/
theorem grossOf_scaleL (c : F) (hc : c ≠ 0) (s : List F) (nv ng : ℕ) (d : F) (win : List F) :
    grossOf s nv ng d (scaleL c win) = grossOf s nv ng d win := by
  unfold grossOf
  cases preprocess s nv d with
  | error e => rfl
  | ok p =>
      obtain ⟨s_gv, x_gv⟩ := p
      simp only [ok_bind]
      rw [npMultiply_scaleL_right]
      cases npMultiply s_gv win with
      | error e => rfl
      | ok w =>
          simp only [Except.map, ok_bind]
          rw [lpc_scaleL c hc]
          cases lpc w 1 with
          | error e => rfl
          | ok g0 =>
              simp only [ok_bind]
              exact grossLoop_scaleL c hc win x_gv (nv + 1) ng g0

/-- The residual after the gross cascade is invariant under scaling the
window by a nonzero constant. -/
theorem grossResidualOf_scaleL (c : F) (hc : c ≠ 0) (s : List F) (nv ng : ℕ) (d : F)
    (win : List F) :
    grossResidualOf s nv ng d (scaleL c win) = grossResidualOf s nv ng d win := by
  unfold grossResidualOf
  cases preprocess s nv d with
  | error e => rfl
  | ok p =>
      obtain ⟨s_gv, x_gv⟩ := p
      simp only [ok_bind]
      rw [grossOf_scaleL c hc]

set_option maxRecDepth 8000 in
/-- C8, as stated, is false: a successful call on the frame
`[1, 2, -1, 1]` (`nv = 2`, `ng = 1`, `d = 1/2`) with the constant window
`1/4` leaves a gross-cascade residual of energy ≈ 7.27, strictly larger
than the energy `7/16` of the windowed frame.  The residual is computed
from the unwindowed integrated signal, so shrinking the window shrinks
the right-hand side only. -/
theorem claim_C8_counterexample :
    (gfmiaifW ([1, 2, -1, 1] : List ℚ) 2 1 (1 / 2) [1 / 4, 1 / 4, 1 / 4, 1 / 4]).isOk = true ∧
    ((grossResidualOf ([1, 2, -1, 1] : List ℚ) 2 1 (1 / 2) [1 / 4, 1 / 4, 1 / 4, 1 / 4]).map
        energy) =
      .ok (55103707098072828861254371759357 / 7584247581754692447209595801600) ∧
    ((npMultiply ([1, 2, -1, 1] : List ℚ) [1 / 4, 1 / 4, 1 / 4, 1 / 4]).map energy) =
      .ok (7 / 16) ∧
    (7 / 16 : ℚ) < 55103707098072828861254371759357 / 7584247581754692447209595801600 :=
  ⟨by with_unfolding_all decide, by with_unfolding_all rfl, by with_unfolding_all rfl,
   by with_unfolding_all decide⟩

/-- C8 amended: no energy comparison between the gross-cascade residual
and the windowed frame holds, because the residual is invariant under
scaling the window by any nonzero constant while the windowed frame's
energy scales by the square of that constant — so the claimed inequality
fails once the window is small enough. -/
theorem claim_C8_window_scale (c : F) (hc : c ≠ 0) (s win : List F) (nv ng : ℕ) (d : F) :
    grossResidualOf s nv ng d (scaleL c win) = grossResidualOf s nv ng d win ∧
    ∀ ws, npMultiply s win = .ok ws →
      npMultiply s (scaleL c win) = .ok (scaleL c ws) ∧
      energy (scaleL c ws) = c ^ 2 * energy ws := by
  refine ⟨grossResidualOf_scaleL c hc s nv ng d win, fun ws hws => ⟨?_, energy_scaleL c ws⟩⟩
  rw [npMultiply_scaleL_right, hws]
  rfl

set_option maxRecDepth 8000 in
theorem claim_C8_witness :
    grossResidualOf ([1, 2, -1, 1] : List ℚ) 2 1 (1 / 2) (scaleL 2 [1, 1, 1, 1]) =
      grossResidualOf ([1, 2, -1, 1] : List ℚ) 2 1 (1 / 2) [1, 1, 1, 1] ∧
    npMultiply ([1, 2, -1, 1] : List ℚ) (scaleL 2 [1, 1, 1, 1]) = .ok (scaleL 2 [1, 2, -1, 1]) ∧
    energy (scaleL (2 : ℚ) [1, 2, -1, 1]) = 2 ^ 2 * energy [1, 2, -1, 1] := by
  have h := claim_C8_window_scale (2 : ℚ) (by norm_num) [1, 2, -1, 1] [1, 1, 1, 1] 2 1 (1 / 2)
  have hws : npMultiply ([1, 2, -1, 1] : List ℚ) [1, 1, 1, 1] = .ok [1, 2, -1, 1] := by
    with_unfolding_all rfl
  exact ⟨h.1, (h.2 [1, 2, -1, 1] hws).1, (h.2 [1, 2, -1, 1] hws).2⟩

end GFMIAIF
